import Mathlib

/-!
Shallow embedding of the vectorized string combinators of `src/join.cpp`
(`stri_dup`, `stri_join2`, `stri_flatten`) from the stringi repository,
over byte-list strings, together with proofs settling the specification's
claims about them.

Strings are byte lists (`List Nat`); a nullable string slot is an `Option`
(with `none` playing the role of `NA_STRING`), and a nullable integer slot
is an `Option Int` (with `none` playing the role of `NA_INTEGER`).
Scratch buffers are modelled as total functions `Nat → Nat` (unbounded
memory); the bound on the byte offsets actually written is stated and
proved separately against the pre-pass buffer size, mirroring the
allocation performed by the C source.
-/

/-- A byte string: the byte contents of one string element. -/
abbrev Str := List Nat

/-- A nullable string slot (an element of an R `character` vector;
`NA_STRING` is `none`). -/
abbrev NStr := Option Str

/-- A nullable integer slot (an element of an R `integer` vector;
`NA_INTEGER` is `none`). -/
abbrev NInt := Option Int

/-- Modelled from the spec: `stri__recycling_rule` is declared in the
repository but its definition is not under `src/`.  Per spec section 4.5
the broadcast length of two operands is 0 when either operand is empty and
the maximum of the two lengths otherwise. -/
def recycler2 (n1 n2 : Nat) : Nat := if n1 = 0 ∨ n2 = 0 then 0 else max n1 n2

/-- One `memcpy(buf + off, src, src.length)` on a scratch buffer modelled
as a total function from byte offsets to byte values. -/
def memWrite (buf : Nat → Nat) (off : Nat) (src : Str) : Nat → Nat :=
  fun k => if off ≤ k ∧ k < off + src.length then src.getD (k - off) 0 else buf k

/-- One `SET_STRING_ELT(out, i, v)` on an output vector modelled as a
total function from indices to slots. -/
def setAt (out : Nat → NStr) (i : Nat) (v : NStr) : Nat → NStr :=
  fun j => if j = i then v else out j

/-- Valid UTF-8 byte sequences: a list of bytes that decomposes into
well-formed UTF-8 scalar-value encodings (ASCII, or a 2-, 3- or 4-byte
sequence with the standard continuation-byte ranges, excluding overlong
encodings, surrogates and values above U+10FFFF). -/
inductive Utf8Valid : Str → Prop
  | nil : Utf8Valid []
  | ascii {b : Nat} {rest : Str} :
      b ≤ 0x7F → Utf8Valid rest → Utf8Valid (b :: rest)
  | two {b0 b1 : Nat} {rest : Str} :
      0xC2 ≤ b0 → b0 ≤ 0xDF → 0x80 ≤ b1 → b1 ≤ 0xBF →
      Utf8Valid rest → Utf8Valid (b0 :: b1 :: rest)
  | three {b0 b1 b2 : Nat} {rest : Str} :
      0xE0 ≤ b0 → b0 ≤ 0xEF →
      (b0 = 0xE0 → 0xA0 ≤ b1) → (b0 = 0xED → b1 ≤ 0x9F) →
      0x80 ≤ b1 → b1 ≤ 0xBF → 0x80 ≤ b2 → b2 ≤ 0xBF →
      Utf8Valid rest → Utf8Valid (b0 :: b1 :: b2 :: rest)
  | four {b0 b1 b2 b3 : Nat} {rest : Str} :
      0xF0 ≤ b0 → b0 ≤ 0xF4 →
      (b0 = 0xF0 → 0x90 ≤ b1) → (b0 = 0xF4 → b1 ≤ 0x8F) →
      0x80 ≤ b1 → b1 ≤ 0xBF → 0x80 ≤ b2 → b2 ≤ 0xBF → 0x80 ≤ b3 → b3 ≤ 0xBF →
      Utf8Valid rest → Utf8Valid (b0 :: b1 :: b2 :: b3 :: rest)

/-- All non-null slots of a nullable string sequence are valid UTF-8. -/
def SeqValid (l : List NStr) : Prop := ∀ bs : Str, some bs ∈ l → Utf8Valid bs

/-- Non-fatal warnings emitted by the operators (spec section 6). -/
inductive StriWarning
  | collapseExpected1
deriving DecidableEq

/-- The sizing pass of `stri_flatten` (src/src/join.cpp lines 367-376),
written as recursion on the element list: `nchar += len(s[i]) +
(i < ns-1 ? ncharsep : 0)`, where `rest ≠ []` plays the role of
`i < ns-1`. -/
def flattenNcharAux (sepb : Str) : List Str → Nat
  | [] => 0
  | e :: rest =>
      e.length + (if rest ≠ [] then sepb.length else 0) + flattenNcharAux sepb rest

/-- The fill pass of `stri_flatten` (src/src/join.cpp lines 379-390),
written as recursion on the element list, carrying the scratch buffer and
the write cursor `cur`: copy the element, advance, and when another
element follows (`i < ns-1`) and the separator is non-empty, copy the
separator and advance. -/
def flattenFillAux (sepb : Str) : List Str → (Nat → Nat) → Nat → ((Nat → Nat) × Nat)
  | [], buf, cur => (buf, cur)
  | e :: rest, buf, cur =>
      if rest ≠ [] ∧ 0 < sepb.length then
        flattenFillAux sepb rest
          (memWrite (memWrite buf cur e) (cur + e.length) sepb)
          (cur + e.length + sepb.length)
      else
        flattenFillAux sepb rest (memWrite buf cur e) (cur + e.length)

/-- The string described by the spec's Flatten emission rule: `s[0]`
followed, for each later element, by the separator and that element. -/
def joinWithSep (sepb : Str) : List Str → Str
  | [] => []
  | e :: rest => e ++ List.flatten (rest.map (fun x => sepb ++ x))

/-- The warnings emitted by the body of `stri_flatten` once past its
empty-operand early return: `MSG__COLLAPSE_EXPECTED1` exactly when the
separator vector has more than one element (src/src/join.cpp lines
349-355). -/
def flattenWarns (sep : List NStr) : List StriWarning :=
  if 1 < sep.length then [StriWarning.collapseExpected1] else []

/-- `stri_flatten` (src/src/join.cpp lines 337-402) together with the
warnings it emits.  The container constructions and the NA short-circuit
of the sizing loop are modelled value-wise: the sizing loop returns the
NA vector as soon as it meets a null element, which as a value equals
checking `s.any isNone` first; `stri__vector_empty_strings 0` is the
empty vector and `stri__vector_NA_strings 1` is `[none]`.  A separator
with more than one element is truncated to its first element (lines
349-355), which the model expresses by always reading `sep.getD 0`. -/
def stri_flattenFull (s sep : List NStr) : List NStr × List StriWarning :=
  if s.length = 0 ∨ sep.length = 0 then ([], [])
  else
    match sep.getD 0 none with
    | none => ([none], flattenWarns sep)
    | some sepb =>
        if s.any (fun x => x.isNone) then ([none], flattenWarns sep)
        else
          ([some ((List.range
              (flattenNcharAux sepb (s.map (fun x => x.getD [])))).map
              (flattenFillAux sepb (s.map (fun x => x.getD []))
                (fun _ => 0) 0).1)],
           flattenWarns sep)

/-- The value component of `stri_flatten`. -/
def stri_flatten (s sep : List NStr) : List NStr := (stri_flattenFull s sep).1

/-- State of the emission loop of `stri_dup` (src/src/join.cpp lines
69-106): the scratch buffer written so far, the identity of the source
element the buffer currently holds repetitions of (`last_string`,
a pointer compared by identity, modelled as the underlying slot index
`i % |s|`, with `none` for the initial `NULL`), the written prefix length
(`last_index`), and the trace of all byte offsets written so far (used
only to state the buffer-bound safety claim). -/
structure DupState where
  buf : Nat → Nat
  last : Option Nat
  lastIndex : Nat
  tr : List Nat

/-- The inner copy loop of `stri_dup` (src/src/join.cpp lines 99-101):
`for (; last_index < max_index; last_index += cur_length)
memcpy(buf+last_index, cur_string, cur_length)`.  The `0 < src.length`
conjunct records the enclosing branch's guarantee `cur_length > 0`
(line 84), without which the C loop would not terminate either; it is
needed here for termination. -/
def dupWriteLoop (src : Str) (buf : Nat → Nat) (lastIndex maxIndex : Nat)
    (tr : List Nat) : (Nat → Nat) × Nat × List Nat :=
  if _h : lastIndex < maxIndex ∧ 0 < src.length then
    dupWriteLoop src (memWrite buf lastIndex src) (lastIndex + src.length)
      maxIndex (tr ++ (List.range src.length).map (fun k => lastIndex + k))
  else (buf, lastIndex, tr)
termination_by maxIndex - lastIndex
decreasing_by omega

/-- One iteration of the emission loop of `stri_dup` (src/src/join.cpp
lines 77-105): NA propagation (line 79-80), the empty-result branch
(lines 84-87), buffer reuse bookkeeping (lines 91-95), the copy loop
(lines 98-101) and the emitted slot (line 104, reading `max_index` bytes
from the front of the buffer).  Container access `ss->get(i)` resolves to
the underlying element `i % |s|` (spec section 4.1: broadcasting is
internal to the view, and `identity` tokens coincide exactly for equal
underlying slots). -/
def dupUpdate (s : List NStr) (c : List NInt) (st : DupState) (i : Nat) :
    DupState × NStr :=
  match s.getD (i % s.length) none, c.getD (i % c.length) none with
  | none, _ => (st, none)
  | some _, none => (st, none)
  | some str, some d =>
      if d < 0 then (st, none)
      else if d ≤ 0 ∨ str.length ≤ 0 then (st, some [])
      else
        let st1 := if st.last ≠ some (i % s.length) then
            { st with last := some (i % s.length), lastIndex := 0 }
          else st
        let r := dupWriteLoop str st1.buf st1.lastIndex (str.length * d.toNat)
            st1.tr
        ({ buf := r.1, last := st1.last, lastIndex := r.2.1, tr := r.2.2 },
         some ((List.range (str.length * d.toNat)).map r.1))

/-- Modelled from the spec: the iteration order of
`StriContainerUTF8::vectorize_init/next` is not under `src/`.  Per the
source comments (lines 71-76) and spec section 5 it walks a permutation
of the output indices that clusters indices resolving to the same
underlying element; grouping by residue class modulo `|s|` realizes
this. -/
def vectorizeOrder (n L : Nat) : List Nat :=
  List.flatten ((List.range n).map
    (fun r => (List.range L).filter (fun i => i % n = r)))

/-- The initial state: freshly allocated scratch (contents irrelevant,
modelled as zero bytes), `last_string = NULL`, `last_index = 0`. -/
def dupInit : DupState := ⟨fun _ => 0, none, 0, []⟩

/-- One iteration of the `stri_dup` emission loop: update the state and
store the emitted slot at its output index. -/
def dupStep (s : List NStr) (c : List NInt)
    (ac : DupState × (Nat → NStr)) (i : Nat) : DupState × (Nat → NStr) :=
  ((dupUpdate s c ac.1 i).1, setAt ac.2 i (dupUpdate s c ac.1 i).2)

/-- The full emission loop of `stri_dup`: fold `dupStep` over the
vectorized iteration order, collecting output slots. -/
def dupRun (s : List NStr) (c : List NInt) (L : Nat) :
    DupState × (Nat → NStr) :=
  (vectorizeOrder s.length L).foldl (dupStep s c) (dupInit, fun _ => none)

/-- `stri_dup` (src/src/join.cpp lines 40-116): broadcast length from the
recycling rule, empty result for a degenerate length, otherwise the slots
produced by the emission loop, in index order. -/
def stri_dup (s : List NStr) (c : List NInt) : List NStr :=
  if recycler2 s.length c.length = 0 then []
  else (List.range (recycler2 s.length c.length)).map
    (dupRun s c (recycler2 s.length c.length)).2

/-- The per-slot size computed by the pre-pass of `stri_dup`
(src/src/join.cpp lines 54-61): `none` for the skipped null rows, and the
(possibly negative) `cc[i % nc] * ss->get(i).size()` otherwise. -/
def dupSize (s : List NStr) (c : List NInt) (i : Nat) : Option Int :=
  match s.getD (i % s.length) none, c.getD (i % c.length) none with
  | none, _ => none
  | some _, none => none
  | some str, some d => some (d * (str.length : Int))

/-- The running-maximum fold of the `stri_dup` pre-pass. -/
def maxFold (g : Nat → Option Int) (l : List Nat) (init : Int) : Int :=
  l.foldl
    (fun b i => match g i with
      | none => b
      | some v => if b < v then v else b) init

/-- The scratch size computed by the pre-pass of `stri_dup`
(src/src/join.cpp lines 53-61): running maximum of the per-slot sizes
over all output indices, starting from 0. -/
def dupBufsize (s : List NStr) (c : List NInt) (L : Nat) : Int :=
  maxFold (dupSize s c) (List.range L) 0

/-- The naive per-slot semantics of Duplicate, following the spec's
per-slot table (section 4.2): null propagates, a negative count gives
null, a zero count or empty string gives the empty string, and otherwise
the element is repeated `ci` times afresh. -/
def dupNaiveSlot (s : List NStr) (c : List NInt) (i : Nat) : NStr :=
  match s.getD (i % s.length) none, c.getD (i % c.length) none with
  | none, _ => none
  | some _, none => none
  | some str, some d =>
      if d < 0 then none
      else if d ≤ 0 ∨ str.length ≤ 0 then some []
      else some (List.flatten (List.replicate d.toNat str))

/-- The naive Duplicate: every slot computed independently by
`dupNaiveSlot`, with the same broadcast length as `stri_dup`. -/
def dupNaive (s : List NStr) (c : List NInt) : List NStr :=
  (List.range (recycler2 s.length c.length)).map (dupNaiveSlot s c)

/-- The cyclic-prefix invariant behind the `stri_dup` buffer reuse: the
first `n` bytes of the buffer repeat `src`. -/
def CycPrefix (src : Str) (buf : Nat → Nat) (n : Nat) : Prop :=
  ∀ k, k < n → buf k = src.getD (k % src.length) 0

/-- The invariant maintained by the emission loop of `stri_dup`: whenever
`last_string` is set, it names a live slot whose element the buffer's
written prefix repeats cyclically, and the written prefix length is a
multiple of that element's length. -/
def StateOK (s : List NStr) (st : DupState) : Prop :=
  ∀ r, st.last = some r →
    ∃ str, s.getD r none = some str ∧ 0 < str.length ∧
      str.length ∣ st.lastIndex ∧ CycPrefix str st.buf st.lastIndex

/-- The inner iteration indices of the `stri_join2` loops
(src/src/join.cpp lines 152 and 192): `for (j = i; j < nsm; j += ns1)`,
i.e. the output indices below `nsm` whose residue modulo `ns1` is `i`,
in increasing order. -/
def innerIdxs (ns1 nsm i : Nat) : List Nat :=
  (List.range nsm).filter (fun j => j % ns1 = i)

/-- The running-maximum fold of the `stri_join2` sizing pass (natural
number version). -/
def maxFoldN (g : Nat → Option Nat) (l : List Nat) (init : Nat) : Nat :=
  l.foldl
    (fun m j => match g j with
      | none => m
      | some v => if m < v then v else m) init

/-- The per-pair size examined by the `stri_join2` sizing pass
(src/src/join.cpp lines 153-157): `none` for a null `b` slot, else
`len(s1) + len(s2)`. -/
def joinPairSize (b : List NStr) (s1 : Str) (j : Nat) : Option Nat :=
  match b.getD (j % b.length) none with
  | none => none
  | some s2 => some (s1.length + s2.length)

/-- The sizing pass of `stri_join2` (src/src/join.cpp lines 146-159):
outer loop over the indices of `a`, skipping null elements, inner loop
over the broadcast slots sharing that element. -/
def joinMaxsize (a b : List NStr) (nsm : Nat) : Nat :=
  (List.range a.length).foldl
    (fun m i =>
      match a.getD i none with
      | none => m
      | some s1 => maxFoldN (joinPairSize b s1) (innerIdxs a.length nsm i) m)
    0

/-- The tail of one live inner iteration of `stri_join2`
(src/src/join.cpp lines 205-207): copy `s2` (when non-empty) right after
the held prefix and emit `sn1 + sn2` bytes from the front of the
buffer. -/
def joinEmit (s1 s2 : Str) (j : Nat) (bo : (Nat → Nat) × Nat)
    (out : Nat → NStr) : (Nat → Nat) × Nat × (Nat → NStr) :=
  ((if s2.length ≠ 0 then memWrite bo.1 bo.2 s2 else bo.1), bo.2,
   setAt out j (some ((List.range (s1.length + s2.length)).map
     (if s2.length ≠ 0 then memWrite bo.1 bo.2 s2 else bo.1))))

/-- One inner iteration of `stri_join2` (src/src/join.cpp lines
192-208), carrying the scratch buffer, the `buf2` cursor (as the offset
`buf2 - buf`, so `buf2 == buf` is `off = 0`: `buf2` is only ever `buf`
or `buf + sn1` with `sn1 ≠ 0`), and the output vector.  A null `b` slot
stores `NA`; otherwise `s1` is lazily copied to the front of the buffer
on the first live iteration (lines 200-204) and the pair is emitted. -/
def join2InnerStep (b : List NStr) (s1 : Str)
    (st : (Nat → Nat) × Nat × (Nat → NStr)) (j : Nat) :
    (Nat → Nat) × Nat × (Nat → NStr) :=
  match b.getD (j % b.length) none with
  | none => (st.1, st.2.1, setAt st.2.2 j none)
  | some s2 =>
      joinEmit s1 s2 j
        (if s1.length ≠ 0 ∧ st.2.1 = 0 then (memWrite st.1 0 s1, s1.length)
         else (st.1, st.2.1))
        st.2.2

/-- One outer iteration of `stri_join2` (src/src/join.cpp lines
180-211): a null `a` element stores `NA` in its whole residue class
(lines 182-185); a live element resets `buf2 = buf` (line 187, offset 0)
and runs the inner loop. -/
def join2OuterStep (a b : List NStr) (nsm : Nat)
    (st : (Nat → Nat) × (Nat → NStr)) (i : Nat) :
    (Nat → Nat) × (Nat → NStr) :=
  match a.getD i none with
  | none =>
      (st.1,
       (innerIdxs a.length nsm i).foldl (fun out j => setAt out j none) st.2)
  | some s1 =>
      (((innerIdxs a.length nsm i).foldl (join2InnerStep b s1)
          (st.1, 0, st.2)).1,
       ((innerIdxs a.length nsm i).foldl (join2InnerStep b s1)
          (st.1, 0, st.2)).2.2)

/-- The emission pass of `stri_join2` for a non-degenerate maximal size:
fold the outer step over the indices of `a`.  The scratch buffer is
allocated once (uninitialized, modelled as zeros) and persists across
outer iterations. -/
def join2Outer (a b : List NStr) (nsm : Nat) : (Nat → Nat) × (Nat → NStr) :=
  (List.range a.length).foldl (join2OuterStep a b nsm)
    ((fun _ => 0), (fun _ => none))

/-- `stri_join2` (src/src/join.cpp lines 133-216): an empty operand
returns the other operand unchanged (lines 142-143); when the sizing
pass yields 0 every slot is `NA` or the empty string according to null
propagation, without touching the scratch (lines 165-174); otherwise the
buffered emission pass runs (lines 176-211). -/
def stri_join2 (a b : List NStr) : List NStr :=
  if a.length = 0 then b
  else if b.length = 0 then a
  else
    if joinMaxsize a b (recycler2 a.length b.length) = 0 then
      (List.range (recycler2 a.length b.length)).map (fun i =>
        if a.getD (i % a.length) none = none
            ∨ b.getD (i % b.length) none = none
        then none else some [])
    else
      (List.range (recycler2 a.length b.length)).map
        (join2Outer a b (recycler2 a.length b.length)).2

/-- The per-slot semantics of PairJoin per the spec's table (section
4.3): null propagates, otherwise the byte concatenation of the two
slices. -/
def join2NaiveSlot (a b : List NStr) (j : Nat) : NStr :=
  match a.getD (j % a.length) none, b.getD (j % b.length) none with
  | none, _ => none
  | some _, none => none
  | some s1, some s2 => some (s1 ++ s2)

/-- The invariant of the `stri_join2` inner loop: either `buf2 == buf`
(offset 0), or the buffer's front holds a copy of the non-empty `s1` and
`buf2 = buf + sn1`. -/
def JInv (s1 : Str) (buf : Nat → Nat) (off : Nat) : Prop :=
  off = 0 ∨ (off = s1.length ∧ 0 < s1.length ∧
    ∀ k, k < s1.length → buf k = s1.getD k 0)

theorem setAt_same (out : Nat → NStr) (i : Nat) (v : NStr) : setAt out i v i = v := by
  simp [setAt]

theorem setAt_other (out : Nat → NStr) (i j : Nat) (v : NStr) (h : j ≠ i) :
    setAt out i v j = out j := by
  simp [setAt, h]

theorem memWrite_of_lt (buf : Nat → Nat) (off : Nat) (src : Str) (k : Nat)
    (h : k < off) : memWrite buf off src k = buf k := by
  simp only [memWrite]
  rw [if_neg]
  omega

theorem memWrite_of_ge (buf : Nat → Nat) (off : Nat) (src : Str) (k : Nat)
    (h : off + src.length ≤ k) : memWrite buf off src k = buf k := by
  simp only [memWrite]
  rw [if_neg]
  omega

theorem memWrite_of_mem (buf : Nat → Nat) (off : Nat) (src : Str) (k : Nat)
    (h1 : off ≤ k) (h2 : k < off + src.length) :
    memWrite buf off src k = src.getD (k - off) 0 := by
  simp only [memWrite]
  rw [if_pos ⟨h1, h2⟩]

/-- Writing `src` right after a buffer prefix holding `w` yields a buffer
prefix holding `w ++ src`. -/
theorem memWrite_append (buf : Nat → Nat) (w src : Str)
    (h : ∀ k, k < w.length → buf k = w.getD k 0) :
    ∀ k, k < w.length + src.length →
      memWrite buf w.length src k = (w ++ src).getD k 0 := by
  intro k hk
  by_cases hlt : k < w.length
  · rw [memWrite_of_lt _ _ _ _ hlt, h k hlt]
    rw [List.getD_append _ _ _ _ hlt]
  · have hge : w.length ≤ k := Nat.le_of_not_lt hlt
    rw [memWrite_of_mem _ _ _ _ hge (by omega)]
    rw [List.getD_append_right _ _ _ _ hge]

/-- Reading `xs.length` bytes from a buffer whose prefix holds `xs`
returns exactly `xs`. -/
theorem rangeMap_of_front (f : Nat → Nat) (xs : Str)
    (h : ∀ k, k < xs.length → f k = xs.getD k 0) :
    (List.range xs.length).map f = xs := by
  apply List.ext_getElem
  · simp
  · intro i h1 h2
    simp only [List.getElem_map, List.getElem_range]
    rw [h i (by simpa using h2)]
    exact List.getD_eq_getElem xs 0 h2

/-- Reading `n` bytes, where `n` equals the length of `xs`, from a buffer
whose prefix holds `xs` returns exactly `xs`. -/
theorem rangeMap_len_of_front (f : Nat → Nat) (n : Nat) (xs : Str)
    (hn : xs.length = n) (h : ∀ k, k < n → f k = xs.getD k 0) :
    (List.range n).map f = xs := by
  subst hn
  exact rangeMap_of_front f xs h

/-- `getD` through `map` over `range`. -/
theorem getD_map_range {α : Type} (f : Nat → α) (d : α) (n i : Nat) (h : i < n) :
    ((List.range n).map f).getD i d = f i := by
  have hlen : i < ((List.range n).map f).length := by simpa using h
  rw [List.getD_eq_getElem _ _ hlen]
  simp

/-- Concatenating two valid UTF-8 strings yields a valid UTF-8 string. -/
theorem Utf8Valid.append {xs ys : Str} (hx : Utf8Valid xs) (hy : Utf8Valid ys) :
    Utf8Valid (xs ++ ys) := by
  induction hx with
  | nil => simpa using hy
  | ascii h1 _ ih => exact Utf8Valid.ascii h1 ih
  | two h1 h2 h3 h4 _ ih => exact Utf8Valid.two h1 h2 h3 h4 ih
  | three h1 h2 h3 h4 h5 h6 h7 h8 _ ih =>
      exact Utf8Valid.three h1 h2 h3 h4 h5 h6 h7 h8 ih
  | four h1 h2 h3 h4 h5 h6 h7 h8 h9 h10 _ ih =>
      exact Utf8Valid.four h1 h2 h3 h4 h5 h6 h7 h8 h9 h10 ih

/-- Flattening a list of valid UTF-8 strings yields a valid UTF-8 string. -/
theorem Utf8Valid.join {l : List Str} (h : ∀ x ∈ l, Utf8Valid x) :
    Utf8Valid (List.flatten l) := by
  induction l with
  | nil => exact Utf8Valid.nil
  | cons x xs ih =>
      rw [List.flatten_cons]
      exact (h x (by simp)).append (ih (fun y hy => h y (by simp [hy])))

/-- Repeating a valid UTF-8 string yields a valid UTF-8 string. -/
theorem Utf8Valid.replicate {x : Str} (n : Nat) (h : Utf8Valid x) :
    Utf8Valid (List.flatten (List.replicate n x)) :=
  Utf8Valid.join (fun y hy => by rw [List.eq_of_mem_replicate hy]; exact h)

theorem joinWithSep_single (sepb e : Str) : joinWithSep sepb [e] = e := by
  simp [joinWithSep]

theorem joinWithSep_cons (sepb e : Str) (rest : List Str) (h : rest ≠ []) :
    joinWithSep sepb (e :: rest) = e ++ sepb ++ joinWithSep sepb rest := by
  cases rest with
  | nil => exact absurd rfl h
  | cons r rs => simp [joinWithSep, List.append_assoc]

theorem joinWithSep_nil_sep (l : List Str) :
    joinWithSep [] l = List.flatten l := by
  cases l with
  | nil => rfl
  | cons e rest => simp [joinWithSep, List.flatten]

theorem joinWithSep_length (sepb : Str) (l : List Str) :
    (joinWithSep sepb l).length
      = (l.map List.length).sum + (l.length - 1) * sepb.length := by
  induction l with
  | nil => simp [joinWithSep]
  | cons e rest ih =>
      cases rest with
      | nil => simp [joinWithSep]
      | cons r rs =>
          rw [joinWithSep_cons _ _ _ (by simp)]
          simp only [List.length_append, ih, List.map_cons, List.sum_cons,
            List.length_cons]
          simp only [Nat.add_sub_cancel, Nat.succ_sub_one, Nat.succ_mul]
          omega

theorem flattenNcharAux_eq (sepb : Str) (l : List Str) :
    flattenNcharAux sepb l = (joinWithSep sepb l).length := by
  induction l with
  | nil => rfl
  | cons e rest ih =>
      cases rest with
      | nil => simp [flattenNcharAux, joinWithSep]
      | cons r rs =>
          rw [flattenNcharAux, joinWithSep_cons _ _ _ (by simp), ih]
          simp [List.length_append]
          omega

theorem flattenFillAux_spec (sepb : Str) :
    ∀ (elems : List Str) (buf : Nat → Nat) (w : Str),
      (∀ k, k < w.length → buf k = w.getD k 0) →
      (flattenFillAux sepb elems buf w.length).2
          = w.length + (joinWithSep sepb elems).length ∧
      ∀ k, k < w.length + (joinWithSep sepb elems).length →
        (flattenFillAux sepb elems buf w.length).1 k
          = (w ++ joinWithSep sepb elems).getD k 0 := by
  intro elems
  induction elems with
  | nil =>
      intro buf w h
      constructor
      · simp [flattenFillAux, joinWithSep]
      · intro k hk
        simp only [joinWithSep, List.length_nil, Nat.add_zero] at hk
        simp only [flattenFillAux, joinWithSep]
        rw [List.append_nil]
        exact h k hk
  | cons e rest ih =>
      intro buf w h
      have hbuf1 : ∀ k, k < (w ++ e).length →
          memWrite buf w.length e k = (w ++ e).getD k 0 := by
        intro k hk
        exact memWrite_append buf w e h k
          (by simp only [List.length_append] at hk; omega)
      by_cases hc : rest ≠ [] ∧ 0 < sepb.length
      · have hbuf2 : ∀ k, k < ((w ++ e) ++ sepb).length →
            memWrite (memWrite buf w.length e) (w ++ e).length sepb k
              = ((w ++ e) ++ sepb).getD k 0 := by
          intro k hk
          exact memWrite_append _ (w ++ e) sepb hbuf1 k
            (by simp only [List.length_append] at hk ⊢; omega)
        obtain ⟨ih1, ih2⟩ :=
          ih (memWrite (memWrite buf w.length e) (w ++ e).length sepb)
            ((w ++ e) ++ sepb) hbuf2
        have hjoin : joinWithSep sepb (e :: rest)
            = e ++ sepb ++ joinWithSep sepb rest := joinWithSep_cons _ _ _ hc.1
        have hunf : flattenFillAux sepb (e :: rest) buf w.length
            = flattenFillAux sepb rest
                (memWrite (memWrite buf w.length e) ((w ++ e).length) sepb)
                (((w ++ e) ++ sepb).length) := by
          rw [flattenFillAux, if_pos hc]
          simp only [List.length_append]
        rw [hunf, hjoin]
        constructor
        · rw [ih1]
          simp only [List.length_append]
          omega
        · intro k hk
          rw [ih2 k (by simp only [List.length_append] at hk ⊢; omega)]
          simp only [List.append_assoc]
      · have hunf : flattenFillAux sepb (e :: rest) buf w.length
            = flattenFillAux sepb rest (memWrite buf w.length e)
                ((w ++ e).length) := by
          rw [flattenFillAux, if_neg hc]
          simp only [List.length_append]
        obtain ⟨ih1, ih2⟩ := ih (memWrite buf w.length e) (w ++ e) hbuf1
        rw [hunf]
        by_cases hr : rest = []
        · subst hr
          constructor
          · rw [ih1]
            simp [joinWithSep]
          · intro k hk
            rw [ih2 k (by simp [joinWithSep] at hk ⊢; omega)]
            simp [joinWithSep]
        · have hsl : sepb.length = 0 := by
            by_contra hnz
            exact hc ⟨hr, Nat.pos_of_ne_zero hnz⟩
          have hsep : sepb = [] := List.length_eq_zero.mp hsl
          subst hsep
          have hjoin : joinWithSep ([] : Str) (e :: rest)
              = e ++ joinWithSep ([] : Str) rest := by
            rw [joinWithSep_nil_sep, joinWithSep_nil_sep, List.flatten_cons]
          rw [hjoin]
          constructor
          · rw [ih1]
            simp only [List.length_append]
            omega
          · intro k hk
            rw [ih2 k (by simp only [List.length_append] at hk ⊢; omega)]
            simp only [List.append_assoc]

/-- In the non-degenerate branch (both operands non-empty, separator
non-null, no null element), `stri_flatten` emits exactly the string
described by the spec: the first element followed by separator-element
pairs. -/
theorem stri_flattenFull_main (s sep : List NStr)
    (h0 : ¬(s.length = 0 ∨ sep.length = 0)) (sepb : Str)
    (hsep : sep.getD 0 none = some sepb)
    (hnn : s.any (fun x => x.isNone) = false) :
    stri_flattenFull s sep
      = ([some (joinWithSep sepb (s.map (fun x => x.getD [])))],
         flattenWarns sep) := by
  obtain ⟨h1, h2⟩ := flattenFillAux_spec sepb (s.map (fun x => x.getD []))
    (fun _ => 0) [] (fun k hk => absurd hk (by simp))
  simp only [List.length_nil, List.nil_append, Nat.zero_add] at h1 h2
  unfold stri_flattenFull
  rw [if_neg h0, hsep]
  simp only [hnn, Bool.false_eq_true, if_false]
  rw [flattenNcharAux_eq]
  have hread : (List.range
        (joinWithSep sepb (s.map (fun x => x.getD []))).length).map
      (flattenFillAux sepb (s.map (fun x => x.getD [])) (fun _ => 0) 0).1
      = joinWithSep sepb (s.map (fun x => x.getD [])) :=
    rangeMap_of_front _ _ (fun k hk => h2 k hk)
  rw [hread]

/-- Full specification of the copy loop: starting from a cyclic prefix
of length `lastIndex` (a multiple of `src.length`), it extends the
written prefix exactly to `max lastIndex maxIndex`, preserving the
cyclic-prefix invariant, and only ever writes at offsets below
`maxIndex`. -/
theorem dupWriteLoop_spec (src : Str) (hsrc : 0 < src.length)
    (maxIndex : Nat) (hdvd : src.length ∣ maxIndex) :
    ∀ (fuel lastIndex : Nat), maxIndex - lastIndex ≤ fuel →
    ∀ (buf : Nat → Nat) (tr : List Nat),
      src.length ∣ lastIndex → CycPrefix src buf lastIndex →
      (dupWriteLoop src buf lastIndex maxIndex tr).2.1
          = max lastIndex maxIndex ∧
      src.length ∣ (dupWriteLoop src buf lastIndex maxIndex tr).2.1 ∧
      CycPrefix src (dupWriteLoop src buf lastIndex maxIndex tr).1
        (dupWriteLoop src buf lastIndex maxIndex tr).2.1 ∧
      ∀ o ∈ (dupWriteLoop src buf lastIndex maxIndex tr).2.2,
        o ∈ tr ∨ o < maxIndex := by
  intro fuel
  induction fuel with
  | zero =>
      intro lastIndex hfu buf tr hdl hcyc
      have hge : maxIndex ≤ lastIndex := by omega
      rw [dupWriteLoop, dif_neg (by omega)]
      refine ⟨?_, hdl, hcyc, fun o ho => Or.inl ho⟩
      show lastIndex = max lastIndex maxIndex
      omega
  | succ fuel ih =>
      intro lastIndex hfu buf tr hdl hcyc
      by_cases hlt : lastIndex < maxIndex
      · rw [dupWriteLoop, dif_pos ⟨hlt, hsrc⟩]
        have hstep : lastIndex + src.length ≤ maxIndex := by
          rcases hdl with ⟨a, ha⟩
          rcases hdvd with ⟨b, hb⟩
          subst ha hb
          have hab : a < b := by
            by_contra hab
            push_neg at hab
            exact absurd (Nat.mul_le_mul_left src.length hab) (by omega)
          calc src.length * a + src.length = src.length * (a + 1) := by ring
          _ ≤ src.length * b := Nat.mul_le_mul_left src.length (by omega)
        have hcyc2 : CycPrefix src (memWrite buf lastIndex src)
            (lastIndex + src.length) := by
          intro k hk
          by_cases hk2 : k < lastIndex
          · rw [memWrite_of_lt _ _ _ _ hk2]
            exact hcyc k hk2
          · rw [memWrite_of_mem _ _ _ _ (by omega) (by omega)]
            have hmod : (k - lastIndex) % src.length = k % src.length := by
              rcases hdl with ⟨a, ha⟩
              conv_rhs => rw [show k = (k - lastIndex) + src.length * a from by omega]
              rw [Nat.add_mul_mod_self_left]
            rw [← hmod]
            have hlt2 : k - lastIndex < src.length := by omega
            rw [Nat.mod_eq_of_lt hlt2]
        have ihx := ih (lastIndex + src.length) (by omega)
          (memWrite buf lastIndex src)
          (tr ++ (List.range src.length).map (fun k => lastIndex + k))
          (by rcases hdl with ⟨a, ha⟩; exact ⟨a + 1, by rw [ha]; ring⟩)
          hcyc2
        refine ⟨?_, ihx.2.1, ihx.2.2.1, ?_⟩
        · rw [ihx.1]
          omega
        · intro o ho
          rcases ihx.2.2.2 o ho with hin | hlt2
          · rcases List.mem_append.mp hin with h1 | h1
            · exact Or.inl h1
            · right
              rcases List.mem_map.mp h1 with ⟨k, hk1, hk2⟩
              have := List.mem_range.mp hk1
              omega
          · exact Or.inr hlt2
      · rw [dupWriteLoop, dif_neg (by omega)]
        refine ⟨?_, hdl, hcyc, fun o ho => Or.inl ho⟩
        show lastIndex = max lastIndex maxIndex
        omega

theorem flatten_replicate_length (n : Nat) (x : Str) :
    (List.flatten (List.replicate n x)).length = n * x.length := by
  rw [List.length_flatten, List.map_replicate, List.sum_replicate, smul_eq_mul]

theorem flatten_replicate_getD (x : Str) :
    ∀ (n k : Nat), k < n * x.length →
      (List.flatten (List.replicate n x)).getD k 0 = x.getD (k % x.length) 0 := by
  intro n
  induction n with
  | zero => intro k hk; omega
  | succ n ih =>
      intro k hk
      rw [Nat.succ_mul] at hk
      rw [List.replicate_succ, List.flatten_cons]
      by_cases hk2 : k < x.length
      · rw [List.getD_append _ _ _ _ hk2, Nat.mod_eq_of_lt hk2]
      · have hxpos : 0 < x.length := by
          rcases Nat.eq_zero_or_pos x.length with h0 | h0
          · rw [h0] at hk; omega
          · exact h0
        rw [List.getD_append_right _ _ _ _ (by omega)]
        rw [ih (k - x.length) (by omega)]
        have hmod : (k - x.length) % x.length = k % x.length := by
          conv_rhs => rw [show k = (k - x.length) + x.length * 1 from by omega]
          rw [Nat.add_mul_mod_self_left]
        rw [hmod]

/-- The live (non-null, positive-count, non-empty-string) branch of one
`stri_dup` iteration: starting from any state satisfying the reuse
invariant, the copy loop produces exactly the freshly-repeated string,
re-establishes the invariant, and only writes below
`cur_dups * cur_length`. -/
theorem dupMainCase (s : List NStr) (i : Nat) (st1 : DupState)
    (str : Str) (d : Int)
    (hs : s.getD (i % s.length) none = some str)
    (hd : 0 < d) (hlen : 0 < str.length)
    (hlast : st1.last = some (i % s.length))
    (hdvd : str.length ∣ st1.lastIndex)
    (hcyc : CycPrefix str st1.buf st1.lastIndex) :
    StateOK s
      { buf := (dupWriteLoop str st1.buf st1.lastIndex
          (str.length * d.toNat) st1.tr).1,
        last := st1.last,
        lastIndex := (dupWriteLoop str st1.buf st1.lastIndex
          (str.length * d.toNat) st1.tr).2.1,
        tr := (dupWriteLoop str st1.buf st1.lastIndex
          (str.length * d.toNat) st1.tr).2.2 } ∧
    (List.range (str.length * d.toNat)).map
        (dupWriteLoop str st1.buf st1.lastIndex
          (str.length * d.toNat) st1.tr).1
      = List.flatten (List.replicate d.toNat str) ∧
    ∀ o ∈ (dupWriteLoop str st1.buf st1.lastIndex
        (str.length * d.toNat) st1.tr).2.2,
      o ∈ st1.tr ∨ (o : Int) < d * (str.length : Int) := by
  obtain ⟨e1, e2, e3, e4⟩ := dupWriteLoop_spec str hlen (str.length * d.toNat)
    ⟨d.toNat, rfl⟩ (str.length * d.toNat) st1.lastIndex (by omega)
    st1.buf st1.tr hdvd hcyc
  have hcast : ((str.length * d.toNat : Nat) : Int) = d * (str.length : Int) := by
    rw [Nat.cast_mul, Int.toNat_of_nonneg (by omega)]
    ring
  refine ⟨?_, ?_, ?_⟩
  · intro r' hr'
    have hr'' : r' = i % s.length := by
      have := hlast ▸ hr'
      exact (Option.some.injEq _ _).mp this.symm
    subst hr''
    exact ⟨str, hs, hlen, e2, e3⟩
  · have hlen2 : (List.flatten (List.replicate d.toNat str)).length
        = str.length * d.toNat := by
      rw [flatten_replicate_length]
      ring
    apply rangeMap_len_of_front _ _ _ hlen2
    intro k hk
    rw [e3 k (by rw [e1]; omega)]
    rw [flatten_replicate_getD str d.toNat k
      (by rw [Nat.mul_comm] at hk; exact hk)]
  · intro o ho
    rcases e4 o ho with h1 | h1
    · exact Or.inl h1
    · right
      rw [← hcast]
      exact_mod_cast h1

/-- One iteration of the `stri_dup` emission loop, from any state
satisfying the reuse invariant, preserves the invariant, emits exactly
the naive slot value, and only adds write offsets below the slot's
`ci * byte_len(si)`. -/
theorem dupUpdate_spec (s : List NStr) (c : List NInt) (st : DupState)
    (i : Nat) (hok : StateOK s st) :
    StateOK s (dupUpdate s c st i).1 ∧
    (dupUpdate s c st i).2 = dupNaiveSlot s c i ∧
    ∀ o ∈ (dupUpdate s c st i).1.tr, o ∈ st.tr ∨
      ∃ str d, s.getD (i % s.length) none = some str ∧
        c.getD (i % c.length) none = some d ∧ 0 < d ∧
        (o : Int) < d * (str.length : Int) := by
  cases hs : s.getD (i % s.length) none with
  | none =>
      simp only [dupUpdate, dupNaiveSlot, hs]
      exact ⟨hok, by trivial, fun o ho => Or.inl ho⟩
  | some str =>
      cases hc : c.getD (i % c.length) none with
      | none =>
          simp only [dupUpdate, dupNaiveSlot, hs, hc]
          exact ⟨hok, by trivial, fun o ho => Or.inl ho⟩
      | some d =>
          simp only [dupUpdate, dupNaiveSlot, hs, hc]
          by_cases hneg : d < 0
          · simp only [if_pos hneg]
            exact ⟨hok, by trivial, fun o ho => Or.inl ho⟩
          · simp only [if_neg hneg]
            by_cases hz : d ≤ 0 ∨ str.length ≤ 0
            · simp only [if_pos hz]
              exact ⟨hok, by trivial, fun o ho => Or.inl ho⟩
            · simp only [if_neg hz]
              push_neg at hz
              obtain ⟨hd, hlen⟩ := hz
              by_cases hlast : st.last ≠ some (i % s.length)
              · simp only [if_pos hlast]
                have key := dupMainCase s i
                  { st with last := some (i % s.length), lastIndex := 0 }
                  str d hs hd hlen rfl ⟨0, rfl⟩
                  (fun k hk => absurd hk (Nat.not_lt_zero k))
                refine ⟨key.1, ?_, ?_⟩
                · rw [key.2.1]
                · intro o ho
                  rcases key.2.2 o ho with h1 | h1
                  · exact Or.inl h1
                  · exact Or.inr ⟨str, d, rfl, rfl, hd, h1⟩
              · simp only [if_neg hlast]
                rw [not_not] at hlast
                obtain ⟨str', hstr', hpos', hdvd', hcyc'⟩ :=
                  hok (i % s.length) hlast
                have hstr'' : str' = str := by
                  rw [hs] at hstr'
                  exact ((Option.some.injEq _ _).mp hstr').symm
                rw [hstr''] at hdvd' hcyc'
                have key := dupMainCase s i st str d hs hd hlen hlast hdvd' hcyc'
                refine ⟨key.1, ?_, ?_⟩
                · rw [key.2.1]
                · intro o ho
                  rcases key.2.2 o ho with h1 | h1
                  · exact Or.inl h1
                  · exact Or.inr ⟨str, d, rfl, rfl, hd, h1⟩

/-- The `stri_dup` emission loop, run over any list of output indices
from any invariant-satisfying state: it preserves the invariant, stores
exactly the naive slot value at every visited index, leaves other
indices untouched, and only adds write offsets below the visited slots'
`ci * byte_len(si)`. -/
theorem dupFold_spec (s : List NStr) (c : List NInt) :
    ∀ (order : List Nat) (st : DupState) (out : Nat → NStr),
      StateOK s st →
      StateOK s (order.foldl (dupStep s c) (st, out)).1 ∧
      (∀ j, (order.foldl (dupStep s c) (st, out)).2 j
          = if j ∈ order then dupNaiveSlot s c j else out j) ∧
      ∀ o ∈ (order.foldl (dupStep s c) (st, out)).1.tr, o ∈ st.tr ∨
        ∃ i ∈ order, ∃ str d, s.getD (i % s.length) none = some str ∧
          c.getD (i % c.length) none = some d ∧ 0 < d ∧
          (o : Int) < d * (str.length : Int) := by
  intro order
  induction order with
  | nil =>
      intro st out hok
      refine ⟨hok, fun j => by simp, fun o ho => Or.inl ho⟩
  | cons i rest ih =>
      intro st out hok
      obtain ⟨hok1, hval, htr⟩ := dupUpdate_spec s c st i hok
      rw [List.foldl_cons]
      obtain ⟨ihok, ihout, ihtr⟩ :=
        ih (dupStep s c (st, out) i).1 (dupStep s c (st, out) i).2 hok1
      refine ⟨ihok, ?_, ?_⟩
      · intro j
        rw [ihout j]
        by_cases hjr : j ∈ rest
        · rw [if_pos hjr, if_pos (List.mem_cons_of_mem i hjr)]
        · rw [if_neg hjr]
          by_cases hji : j = i
          · subst hji
            rw [if_pos (List.mem_cons_self j rest)]
            show setAt out j (dupUpdate s c st j).2 j = dupNaiveSlot s c j
            rw [setAt_same, hval]
          · rw [if_neg (by simp [hji, hjr])]
            show setAt out i (dupUpdate s c st i).2 j = out j
            exact setAt_other _ _ _ _ hji
      · intro o ho
        rcases ihtr o ho with h1 | h1
        · rcases htr o h1 with h2 | h2
          · exact Or.inl h2
          · obtain ⟨str, d, hx⟩ := h2
            exact Or.inr ⟨i, List.mem_cons_self i rest, str, d, hx⟩
        · obtain ⟨i', hi', rest'⟩ := h1
          exact Or.inr ⟨i', List.mem_cons_of_mem i hi', rest'⟩

theorem recycler2_ne_zero {n1 n2 : Nat} (h : recycler2 n1 n2 ≠ 0) :
    0 < n1 ∧ 0 < n2 ∧ recycler2 n1 n2 = max n1 n2 := by
  unfold recycler2 at *
  by_cases h0 : n1 = 0 ∨ n2 = 0
  · rw [if_pos h0] at h
    exact absurd rfl h
  · rw [if_neg h0]
    push_neg at h0
    exact ⟨Nat.pos_of_ne_zero h0.1, Nat.pos_of_ne_zero h0.2, rfl⟩

theorem mem_vectorizeOrder (n L i : Nat) (hn : 0 < n) (hi : i < L) :
    i ∈ vectorizeOrder n L := by
  unfold vectorizeOrder
  rw [List.mem_flatten]
  refine ⟨(List.range L).filter (fun j => j % n = i % n), ?_, ?_⟩
  · rw [List.mem_map]
    exact ⟨i % n, List.mem_range.mpr (Nat.mod_lt i hn), rfl⟩
  · rw [List.mem_filter]
    exact ⟨List.mem_range.mpr hi, by simp⟩

theorem vectorizeOrder_lt (n L : Nat) : ∀ i ∈ vectorizeOrder n L, i < L := by
  intro i hi
  unfold vectorizeOrder at hi
  rw [List.mem_flatten] at hi
  obtain ⟨l, hl, hil⟩ := hi
  rw [List.mem_map] at hl
  obtain ⟨r, _, rfl⟩ := hl
  rw [List.mem_filter] at hil
  exact List.mem_range.mp hil.1

theorem dupInit_ok (s : List NStr) : StateOK s dupInit := by
  intro r hr
  exact absurd hr (by simp [dupInit])

/-- The emission loop with buffer reuse computes exactly the naive slot
value at every output index below the broadcast length. -/
theorem dupRun_out (s : List NStr) (c : List NInt)
    (hL : recycler2 s.length c.length ≠ 0) (j : Nat)
    (hj : j < recycler2 s.length c.length) :
    (dupRun s c (recycler2 s.length c.length)).2 j = dupNaiveSlot s c j := by
  obtain ⟨hs, _, _⟩ := recycler2_ne_zero hL
  obtain ⟨_, hout, _⟩ := dupFold_spec s c
    (vectorizeOrder s.length (recycler2 s.length c.length))
    dupInit (fun _ => none) (dupInit_ok s)
  unfold dupRun
  rw [hout j, if_pos (mem_vectorizeOrder s.length _ j hs hj)]

/-- Helper equivalence shared by the claims about Duplicate: the
buffer-reusing implementation agrees with the naive per-slot semantics. -/
theorem dup_eq_naive (s : List NStr) (c : List NInt) :
    stri_dup s c = dupNaive s c := by
  unfold stri_dup dupNaive
  by_cases hL : recycler2 s.length c.length = 0
  · rw [if_pos hL, hL]
    simp
  · rw [if_neg hL]
    apply List.ext_getElem (by simp)
    intro j h1 h2
    simp only [List.getElem_map, List.getElem_range]
    exact dupRun_out s c hL j (by simpa using h1)

theorem maxFold_cons (g : Nat → Option Int) (i : Nat) (rest : List Nat)
    (init : Int) :
    maxFold g (i :: rest) init
      = maxFold g rest (match g i with
          | none => init
          | some v => if init < v then v else init) := by
  rw [maxFold, List.foldl_cons]
  rfl

theorem maxFold_init_le (g : Nat → Option Int) :
    ∀ (l : List Nat) (init : Int), init ≤ maxFold g l init := by
  intro l
  induction l with
  | nil => intro init; exact le_refl _
  | cons i rest ih =>
      intro init
      rw [maxFold_cons]
      refine le_trans ?_ (ih _)
      cases g i with
      | none => exact le_refl _
      | some v =>
          show init ≤ if init < v then v else init
          by_cases h : init < v
          · rw [if_pos h]
            omega
          · rw [if_neg h]

theorem maxFold_ge (g : Nat → Option Int) :
    ∀ (l : List Nat) (init : Int) (i : Nat), i ∈ l →
      ∀ v, g i = some v → v ≤ maxFold g l init := by
  intro l
  induction l with
  | nil => intro init i hi; exact absurd hi (by simp)
  | cons j rest ih =>
      intro init i hi v hv
      rw [maxFold_cons]
      rcases List.mem_cons.mp hi with hij | hir
      · subst hij
        rw [hv]
        refine le_trans ?_ (maxFold_init_le g rest _)
        show v ≤ if init < v then v else init
        by_cases h : init < v
        · rw [if_pos h]
        · rw [if_neg h]
          omega
      · exact ih _ i hir v hv

theorem maxFold_attained (g : Nat → Option Int) :
    ∀ (l : List Nat) (init : Int),
      maxFold g l init = init ∨ ∃ i ∈ l, g i = some (maxFold g l init) := by
  intro l
  induction l with
  | nil => intro init; exact Or.inl rfl
  | cons j rest ih =>
      intro init
      rw [maxFold_cons]
      rcases ih (match g j with
        | none => init
        | some v => if init < v then v else init) with h | h
      · rw [h]
        cases hg : g j with
        | none =>
            left
            rfl
        | some v =>
            show (if init < v then v else init) = init ∨
              ∃ i ∈ j :: rest, g i = some (if init < v then v else init)
            by_cases hlt : init < v
            · rw [if_pos hlt]
              exact Or.inr ⟨j, List.mem_cons_self j rest, by rw [hg]⟩
            · rw [if_neg hlt]
              exact Or.inl rfl
      · obtain ⟨i, hi, hgi⟩ := h
        exact Or.inr ⟨i, List.mem_cons_of_mem j hi, hgi⟩

/-- Every byte offset written by the `stri_dup` emission loop is strictly
below the scratch size computed by the pre-pass. -/
theorem dupRun_tr_lt (s : List NStr) (c : List NInt) :
    ∀ o ∈ (dupRun s c (recycler2 s.length c.length)).1.tr,
      (o : Int) < dupBufsize s c (recycler2 s.length c.length) := by
  intro o ho
  obtain ⟨_, _, htr⟩ := dupFold_spec s c
    (vectorizeOrder s.length (recycler2 s.length c.length))
    dupInit (fun _ => none) (dupInit_ok s)
  rcases htr o ho with h1 | h1
  · exact absurd h1 (by simp [dupInit])
  · obtain ⟨i, hi, str, d, hs, hc, hd, hlt⟩ := h1
    have hiL : i < recycler2 s.length c.length := vectorizeOrder_lt _ _ i hi
    have hsize : dupSize s c i = some (d * (str.length : Int)) := by
      unfold dupSize
      rw [hs, hc]
    have := maxFold_ge (dupSize s c)
      (List.range (recycler2 s.length c.length)) 0 i
      (List.mem_range.mpr hiL) _ hsize
    calc (o : Int) < d * (str.length : Int) := hlt
      _ ≤ dupBufsize s c (recycler2 s.length c.length) := this

theorem join2InnerStep_spec (b : List NStr) (s1 : Str)
    (buf : Nat → Nat) (off : Nat) (out : Nat → NStr) (j : Nat)
    (hinv : JInv s1 buf off) :
    JInv s1 (join2InnerStep b s1 (buf, off, out) j).1
      (join2InnerStep b s1 (buf, off, out) j).2.1 ∧
    (join2InnerStep b s1 (buf, off, out) j).2.2
      = setAt out j (match b.getD (j % b.length) none with
          | none => none
          | some s2 => some (s1 ++ s2)) := by
  cases hb : b.getD (j % b.length) none with
  | none =>
      simp only [join2InnerStep, hb]
      exact ⟨hinv, by trivial⟩
  | some s2 =>
      simp only [join2InnerStep, hb, joinEmit]
      by_cases hs1 : s1.length ≠ 0 ∧ off = 0
      · simp only [if_pos hs1]
        have hpre : ∀ k, k < s1.length →
            memWrite buf 0 s1 k = s1.getD k 0 := by
          intro k hk
          rw [memWrite_of_mem _ _ _ _ (Nat.zero_le k) (by omega), Nat.sub_zero]
        have hfront : ∀ k, k < s1.length + s2.length →
            (if s2.length ≠ 0 then
                memWrite (memWrite buf 0 s1) s1.length s2
              else memWrite buf 0 s1) k = (s1 ++ s2).getD k 0 := by
          intro k hk
          by_cases h2 : s2.length ≠ 0
          · rw [if_pos h2]
            by_cases hks : k < s1.length
            · rw [memWrite_of_lt _ _ _ _ hks, hpre k hks,
                List.getD_append _ _ _ _ hks]
            · rw [memWrite_of_mem _ _ _ _ (by omega) (by omega),
                List.getD_append_right _ _ _ _ (by omega)]
          · rw [if_neg h2]
            have hks : k < s1.length := by omega
            rw [hpre k hks, List.getD_append _ _ _ _ hks]
        constructor
        · right
          refine ⟨rfl, Nat.pos_of_ne_zero hs1.1, ?_⟩
          intro k hk
          by_cases h2 : s2.length ≠ 0
          · rw [if_pos h2, memWrite_of_lt _ _ _ _ hk]
            exact hpre k hk
          · rw [if_neg h2]
            exact hpre k hk
        · rw [rangeMap_len_of_front _ _ (s1 ++ s2)
            (by simp) hfront]
      · simp only [if_neg hs1]
        rcases hinv with hoff | ⟨hoff, hpos, hpre⟩
        · -- off = 0 and therefore s1 is empty
          have hs1e : s1.length = 0 := by
            by_contra hne
            exact hs1 ⟨hne, hoff⟩
          have hnil : s1 = [] := List.length_eq_zero.mp hs1e
          subst hnil
          subst hoff
          have hfront : ∀ k, k < ([] : Str).length + s2.length →
              (if s2.length ≠ 0 then memWrite buf 0 s2 else buf) k
                = (([] : Str) ++ s2).getD k 0 := by
            intro k hk
            simp only [List.length_nil, Nat.zero_add] at hk
            rw [if_pos (by omega), memWrite_of_mem _ _ _ _ (Nat.zero_le k)
              (by omega)]
            simp
          constructor
          · exact Or.inl rfl
          · rw [rangeMap_len_of_front _ _ (([] : Str) ++ s2)
              (by simp) hfront]
        · -- the front already holds s1
          have hfront : ∀ k, k < s1.length + s2.length →
              (if s2.length ≠ 0 then memWrite buf off s2 else buf) k
                = (s1 ++ s2).getD k 0 := by
            intro k hk
            by_cases h2 : s2.length ≠ 0
            · rw [if_pos h2]
              by_cases hks : k < s1.length
              · rw [memWrite_of_lt _ _ _ _ (by omega), hpre k hks,
                  List.getD_append _ _ _ _ hks]
              · rw [hoff, memWrite_of_mem _ _ _ _ (by omega) (by omega),
                  List.getD_append_right _ _ _ _ (by omega)]
            · rw [if_neg h2]
              have hks : k < s1.length := by omega
              rw [hpre k hks, List.getD_append _ _ _ _ hks]
          constructor
          · right
            refine ⟨hoff, hpos, ?_⟩
            intro k hk
            by_cases h2 : s2.length ≠ 0
            · rw [if_pos h2, memWrite_of_lt _ _ _ _ (by omega)]
              exact hpre k hk
            · rw [if_neg h2]
              exact hpre k hk
          · rw [rangeMap_len_of_front _ _ (s1 ++ s2) (by simp) hfront]

theorem mem_innerIdxs (ns1 nsm i j : Nat) :
    j ∈ innerIdxs ns1 nsm i ↔ j < nsm ∧ j % ns1 = i := by
  unfold innerIdxs
  rw [List.mem_filter, List.mem_range]
  simp

/-- Storing `NA` over a list of indices (the null outer row of
`stri_join2`): visited indices become `NA`, others are untouched. -/
theorem setNone_fold (l : List Nat) :
    ∀ (out : Nat → NStr) (j : Nat),
      (j ∈ l → (l.foldl (fun o i => setAt o i none) out) j = none) ∧
      (j ∉ l → (l.foldl (fun o i => setAt o i none) out) j = out j) := by
  induction l with
  | nil => intro out j; exact ⟨fun h => absurd h (by simp), fun _ => rfl⟩
  | cons i rest ih =>
      intro out j
      rw [List.foldl_cons]
      constructor
      · intro hj
        rcases List.mem_cons.mp hj with hji | hjr
        · subst hji
          by_cases hjr : j ∈ rest
          · exact (ih _ j).1 hjr
          · rw [(ih _ j).2 hjr, setAt_same]
        · exact (ih _ j).1 hjr
      · intro hj
        have hji : j ≠ i := fun h => hj (h ▸ List.mem_cons_self i rest)
        have hjr : j ∉ rest := fun h => hj (List.mem_cons_of_mem i h)
        rw [(ih _ j).2 hjr, setAt_other _ _ _ _ hji]

/-- The inner loop of `stri_join2` over any list of indices in the outer
element's residue class: the invariant is preserved, visited indices get
the naive pair value, others are untouched. -/
theorem join2Inner_fold (a b : List NStr) (i0 : Nat) (s1 : Str)
    (ha : a.getD i0 none = some s1) :
    ∀ (l : List Nat), (∀ j ∈ l, j % a.length = i0) →
    ∀ (buf : Nat → Nat) (off : Nat) (out : Nat → NStr), JInv s1 buf off →
      JInv s1 (l.foldl (join2InnerStep b s1) (buf, off, out)).1
        (l.foldl (join2InnerStep b s1) (buf, off, out)).2.1 ∧
      ∀ j, (j ∈ l → (l.foldl (join2InnerStep b s1) (buf, off, out)).2.2 j
              = join2NaiveSlot a b j) ∧
           (j ∉ l → (l.foldl (join2InnerStep b s1) (buf, off, out)).2.2 j
              = out j) := by
  intro l
  induction l with
  | nil =>
      intro _ buf off out hinv
      exact ⟨hinv, fun j => ⟨fun h => absurd h (by simp), fun _ => rfl⟩⟩
  | cons jj rest ih =>
      intro hcls buf off out hinv
      rw [List.foldl_cons]
      obtain ⟨hinv1, hout1⟩ := join2InnerStep_spec b s1 buf off out jj hinv
      have hstep : join2InnerStep b s1 (buf, off, out) jj
          = ((join2InnerStep b s1 (buf, off, out) jj).1,
             (join2InnerStep b s1 (buf, off, out) jj).2.1,
             (join2InnerStep b s1 (buf, off, out) jj).2.2) := rfl
      rw [hstep]
      obtain ⟨ihinv, ihout⟩ := ih (fun j hj => hcls j (List.mem_cons_of_mem jj hj))
        (join2InnerStep b s1 (buf, off, out) jj).1
        (join2InnerStep b s1 (buf, off, out) jj).2.1
        (join2InnerStep b s1 (buf, off, out) jj).2.2 hinv1
      refine ⟨ihinv, ?_⟩
      intro j
      constructor
      · intro hj
        rcases List.mem_cons.mp hj with hji | hjr
        · subst hji
          by_cases hjr : j ∈ rest
          · exact (ihout j).1 hjr
          · rw [(ihout j).2 hjr, hout1, setAt_same]
            have hcls0 : j % a.length = i0 := hcls j (List.mem_cons_self j rest)
            unfold join2NaiveSlot
            rw [hcls0, ha]
            cases b.getD (j % b.length) none <;> rfl
        · exact (ihout j).1 hjr
      · intro hj
        have hji : j ≠ jj := fun h => hj (h ▸ List.mem_cons_self jj rest)
        have hjr : j ∉ rest := fun h => hj (List.mem_cons_of_mem jj h)
        rw [(ihout j).2 hjr, hout1, setAt_other _ _ _ _ hji]

/-- The outer loop of `stri_join2` over any list of `a`-indices: a slot
whose residue class has been visited holds the naive pair value; slots
in unvisited residue classes are untouched. -/
theorem join2Outer_fold (a b : List NStr) (nsm : Nat) :
    ∀ (il : List Nat) (buf : Nat → Nat) (out : Nat → NStr),
      (∀ j, j < nsm → j % a.length ∈ il →
        (il.foldl (join2OuterStep a b nsm) (buf, out)).2 j
          = join2NaiveSlot a b j) ∧
      (∀ j, j % a.length ∉ il →
        (il.foldl (join2OuterStep a b nsm) (buf, out)).2 j = out j) := by
  intro il
  induction il with
  | nil =>
      intro buf out
      exact ⟨fun j _ hj => absurd hj (by simp), fun j _ => rfl⟩
  | cons i rest ih =>
      intro buf out
      rw [List.foldl_cons]
      have hstep : join2OuterStep a b nsm (buf, out) i
          = ((join2OuterStep a b nsm (buf, out) i).1,
             (join2OuterStep a b nsm (buf, out) i).2) := rfl
      have hvisit : ∀ j, j < nsm → j % a.length = i →
          (join2OuterStep a b nsm (buf, out) i).2 j = join2NaiveSlot a b j := by
        intro j hj hcls
        cases hai : a.getD i none with
        | none =>
            simp only [join2OuterStep, hai]
            rw [(setNone_fold _ _ j).1 ((mem_innerIdxs _ _ _ _).mpr ⟨hj, hcls⟩)]
            unfold join2NaiveSlot
            rw [hcls, hai]
        | some s1 =>
            simp only [join2OuterStep, hai]
            obtain ⟨_, hout⟩ := join2Inner_fold a b i s1 hai
              (innerIdxs a.length nsm i)
              (fun j' hj' => ((mem_innerIdxs _ _ _ _).mp hj').2)
              buf 0 out (Or.inl rfl)
            exact (hout j).1 ((mem_innerIdxs _ _ _ _).mpr ⟨hj, hcls⟩)
      have huntouched : ∀ j, j % a.length ≠ i →
          (join2OuterStep a b nsm (buf, out) i).2 j = out j := by
        intro j hcls
        have hnm : j ∉ innerIdxs a.length nsm i := by
          intro hmem
          exact hcls ((mem_innerIdxs _ _ _ _).mp hmem).2
        cases hai : a.getD i none with
        | none =>
            simp only [join2OuterStep, hai]
            exact (setNone_fold _ _ j).2 hnm
        | some s1 =>
            simp only [join2OuterStep, hai]
            obtain ⟨_, hout⟩ := join2Inner_fold a b i s1 hai
              (innerIdxs a.length nsm i)
              (fun j' hj' => ((mem_innerIdxs _ _ _ _).mp hj').2)
              buf 0 out (Or.inl rfl)
            exact (hout j).2 hnm
      obtain ⟨ih1, ih2⟩ := ih (join2OuterStep a b nsm (buf, out) i).1
        (join2OuterStep a b nsm (buf, out) i).2
      rw [hstep]
      constructor
      · intro j hj hcls
        rcases List.mem_cons.mp hcls with hci | hcr
        · by_cases hcr2 : j % a.length ∈ rest
          · exact ih1 j hj hcr2
          · rw [ih2 j hcr2]
            exact hvisit j hj hci
        · exact ih1 j hj hcr
      · intro j hcls
        have hci : j % a.length ≠ i :=
          fun h => hcls (h ▸ List.mem_cons_self i rest)
        have hcr : j % a.length ∉ rest :=
          fun h => hcls (List.mem_cons_of_mem i h)
        rw [ih2 j hcr]
        exact huntouched j hci

theorem maxFoldN_cons (g : Nat → Option Nat) (i : Nat) (rest : List Nat)
    (init : Nat) :
    maxFoldN g (i :: rest) init
      = maxFoldN g rest (match g i with
          | none => init
          | some v => if init < v then v else init) := by
  rw [maxFoldN, List.foldl_cons]
  rfl

theorem maxFoldN_init_le (g : Nat → Option Nat) :
    ∀ (l : List Nat) (init : Nat), init ≤ maxFoldN g l init := by
  intro l
  induction l with
  | nil => intro init; exact le_refl _
  | cons i rest ih =>
      intro init
      rw [maxFoldN_cons]
      refine le_trans ?_ (ih _)
      cases g i with
      | none => exact le_refl _
      | some v =>
          show init ≤ if init < v then v else init
          by_cases h : init < v
          · rw [if_pos h]
            omega
          · rw [if_neg h]

theorem maxFoldN_ge (g : Nat → Option Nat) :
    ∀ (l : List Nat) (init : Nat) (i : Nat), i ∈ l →
      ∀ v, g i = some v → v ≤ maxFoldN g l init := by
  intro l
  induction l with
  | nil => intro init i hi; exact absurd hi (by simp)
  | cons j rest ih =>
      intro init i hi v hv
      rw [maxFoldN_cons]
      rcases List.mem_cons.mp hi with hij | hir
      · subst hij
        rw [hv]
        refine le_trans ?_ (maxFoldN_init_le g rest _)
        show v ≤ if init < v then v else init
        by_cases h : init < v
        · rw [if_pos h]
        · rw [if_neg h]
          omega
      · exact ih _ i hir v hv

/-- Monotonicity-free contribution bound for the `stri_join2` sizing
pass: every live pair's total length is bounded by the computed
maximum. -/
theorem joinMaxsize_ge (a b : List NStr) (nsm : Nat) (j : Nat)
    (hj : j < nsm) (s1 s2 : Str)
    (ha : a.getD (j % a.length) none = some s1)
    (hb : b.getD (j % b.length) none = some s2) :
    s1.length + s2.length ≤ joinMaxsize a b nsm := by
  have hlen : 0 < a.length := by
    by_contra h0
    have h00 : a = [] := List.length_eq_zero.mp (by omega)
    subst h00
    simp at ha
  have hmem : j % a.length ∈ List.range a.length :=
    List.mem_range.mpr (Nat.mod_lt j hlen)
  unfold joinMaxsize
  have main : ∀ (il : List Nat) (init : Nat),
      (init ≤ il.foldl
        (fun m i =>
          match a.getD i none with
          | none => m
          | some s1 => maxFoldN (joinPairSize b s1) (innerIdxs a.length nsm i) m)
        init) ∧
      (j % a.length ∈ il →
        s1.length + s2.length ≤ il.foldl
          (fun m i =>
            match a.getD i none with
            | none => m
            | some s1 =>
                maxFoldN (joinPairSize b s1) (innerIdxs a.length nsm i) m)
          init) := by
    intro il
    induction il with
    | nil =>
        intro init
        exact ⟨le_refl _, fun h => absurd h (by simp)⟩
    | cons i rest ih =>
        intro init
        rw [List.foldl_cons]
        constructor
        · refine le_trans ?_ (ih _).1
          cases a.getD i none with
          | none => exact le_refl _
          | some s1' =>
              show init ≤ maxFoldN (joinPairSize b s1')
                (innerIdxs a.length nsm i) init
              exact maxFoldN_init_le _ _ _
        · intro hmem2
          rcases List.mem_cons.mp hmem2 with hji | hjr
          · refine le_trans ?_ (ih _).1
            rw [← hji, ha]
            show s1.length + s2.length
              ≤ maxFoldN (joinPairSize b s1)
                  (innerIdxs a.length nsm (j % a.length)) init
            refine maxFoldN_ge _ _ _ j
              ((mem_innerIdxs _ _ _ _).mpr ⟨hj, rfl⟩) _ ?_
            unfold joinPairSize
            rw [hb]
          · exact (ih _).2 hjr
  exact (main (List.range a.length) 0).2 hmem

/-- Helper shared by the claims about PairJoin: with both operands
non-empty, every output slot equals the naive pair value. -/
theorem join2_getD (a b : List NStr) (ha : a.length ≠ 0) (hb : b.length ≠ 0)
    (j : Nat) (hj : j < recycler2 a.length b.length) :
    (stri_join2 a b).getD j none = join2NaiveSlot a b j := by
  unfold stri_join2
  rw [if_neg ha, if_neg hb]
  by_cases hms : joinMaxsize a b (recycler2 a.length b.length) = 0
  · rw [if_pos hms, getD_map_range _ _ _ _ hj]
    cases has : a.getD (j % a.length) none with
    | none =>
        rw [if_pos (Or.inl rfl)]
        unfold join2NaiveSlot
        rw [has]
    | some s1 =>
        cases hbs : b.getD (j % b.length) none with
        | none =>
            rw [if_pos (Or.inr rfl)]
            unfold join2NaiveSlot
            rw [has, hbs]
        | some s2 =>
            rw [if_neg (by simp)]
            unfold join2NaiveSlot
            rw [has, hbs]
            have hle := joinMaxsize_ge a b _ j hj s1 s2 has hbs
            rw [hms] at hle
            have h1 : s1 = [] := List.length_eq_zero.mp (by omega)
            have h2 : s2 = [] := List.length_eq_zero.mp (by omega)
            subst h1
            subst h2
            rfl
  · rw [if_neg hms, getD_map_range _ _ _ _ hj]
    unfold join2Outer
    exact (join2Outer_fold a b _ (List.range a.length) _ _).1 j hj
      (List.mem_range.mpr (Nat.mod_lt j (Nat.pos_of_ne_zero ha)))

theorem getD_some_mem {l : List NStr} {j : Nat} {x : Str}
    (h : l.getD j none = some x) : some x ∈ l := by
  by_cases hj : j < l.length
  · rw [List.getD_eq_getElem _ _ hj] at h
    rw [← h]
    exact List.getElem_mem hj
  · rw [List.getD_eq_default _ _ (by omega)] at h
    exact absurd h (by simp)

theorem mem_to_getD {l : List NStr} {x : Str} (h : some x ∈ l) :
    ∃ j, j < l.length ∧ l.getD j none = some x := by
  obtain ⟨j, hj, hx⟩ := List.getElem_of_mem h
  exact ⟨j, hj, by rw [List.getD_eq_getElem _ _ hj, hx]⟩

theorem stri_dup_valid (s : List NStr) (c : List NInt) (hs : SeqValid s) :
    SeqValid (stri_dup s c) := by
  intro bs hbs
  rw [dup_eq_naive] at hbs
  unfold dupNaive at hbs
  rw [List.mem_map] at hbs
  obtain ⟨i, _, hi⟩ := hbs
  unfold dupNaiveSlot at hi
  cases hsg : s.getD (i % s.length) none with
  | none =>
      rw [hsg] at hi
      exact absurd hi (by simp)
  | some str =>
      cases hcg : c.getD (i % c.length) none with
      | none =>
          rw [hsg, hcg] at hi
          exact absurd hi (by simp)
      | some d =>
          simp only [hsg, hcg] at hi
          by_cases hneg : d < 0
          · rw [if_pos hneg] at hi
            exact absurd hi (by simp)
          · rw [if_neg hneg] at hi
            by_cases hz : d ≤ 0 ∨ str.length ≤ 0
            · rw [if_pos hz] at hi
              have hbs' : bs = [] := ((Option.some.injEq _ _).mp hi).symm
              rw [hbs']
              exact Utf8Valid.nil
            · rw [if_neg hz] at hi
              have hbs' : bs = List.flatten (List.replicate d.toNat str) :=
                ((Option.some.injEq _ _).mp hi).symm
              rw [hbs']
              exact Utf8Valid.replicate d.toNat (hs str (getD_some_mem hsg))

theorem stri_join2_length (a b : List NStr) (ha : a.length ≠ 0)
    (hb : b.length ≠ 0) :
    (stri_join2 a b).length = recycler2 a.length b.length := by
  unfold stri_join2
  rw [if_neg ha, if_neg hb]
  by_cases hms : joinMaxsize a b (recycler2 a.length b.length) = 0
  · rw [if_pos hms]
    simp
  · rw [if_neg hms]
    simp

theorem stri_join2_valid (a b : List NStr) (hva : SeqValid a)
    (hvb : SeqValid b) : SeqValid (stri_join2 a b) := by
  intro bs hbs
  by_cases ha : a.length = 0
  · unfold stri_join2 at hbs
    rw [if_pos ha] at hbs
    exact hvb bs hbs
  · by_cases hb : b.length = 0
    · unfold stri_join2 at hbs
      rw [if_neg ha, if_pos hb] at hbs
      exact hva bs hbs
    · obtain ⟨j, hj, hg⟩ := mem_to_getD hbs
      rw [stri_join2_length a b ha hb] at hj
      rw [join2_getD a b ha hb j hj] at hg
      unfold join2NaiveSlot at hg
      cases hag : a.getD (j % a.length) none with
      | none =>
          rw [hag] at hg
          exact absurd hg (by simp)
      | some s1 =>
          cases hbg : b.getD (j % b.length) none with
          | none =>
              rw [hag, hbg] at hg
              exact absurd hg (by simp)
          | some s2 =>
              rw [hag, hbg] at hg
              have hbs' : bs = s1 ++ s2 := ((Option.some.injEq _ _).mp hg).symm
              rw [hbs']
              exact (hva s1 (getD_some_mem hag)).append
                (hvb s2 (getD_some_mem hbg))

theorem joinWithSep_valid (sepb : Str) (hsep : Utf8Valid sepb) :
    ∀ l : List Str, (∀ x ∈ l, Utf8Valid x) →
      Utf8Valid (joinWithSep sepb l) := by
  intro l hl
  cases l with
  | nil => exact Utf8Valid.nil
  | cons e rest =>
      unfold joinWithSep
      refine (hl e (by simp)).append (Utf8Valid.join ?_)
      intro y hy
      rw [List.mem_map] at hy
      obtain ⟨x, hx, hxy⟩ := hy
      rw [← hxy]
      exact hsep.append (hl x (by simp [hx]))

theorem stri_flattenFull_empty (s sep : List NStr)
    (h : s.length = 0 ∨ sep.length = 0) : stri_flattenFull s sep = ([], []) := by
  unfold stri_flattenFull
  rw [if_pos h]

theorem stri_flattenFull_sepNA (s sep : List NStr)
    (h0 : ¬(s.length = 0 ∨ sep.length = 0)) (hsep : sep.getD 0 none = none) :
    stri_flattenFull s sep = ([none], flattenWarns sep) := by
  unfold stri_flattenFull
  rw [if_neg h0, hsep]

theorem stri_flattenFull_anyNA (s sep : List NStr)
    (h0 : ¬(s.length = 0 ∨ sep.length = 0)) (sepb : Str)
    (hsep : sep.getD 0 none = some sepb)
    (hany : s.any (fun x => x.isNone) = true) :
    stri_flattenFull s sep = ([none], flattenWarns sep) := by
  unfold stri_flattenFull
  rw [if_neg h0, hsep]
  simp only [hany, if_true]

theorem stri_flatten_valid (s sep : List NStr) (hvs : SeqValid s)
    (hvsep : SeqValid sep) : SeqValid (stri_flatten s sep) := by
  intro bs hbs
  unfold stri_flatten at hbs
  by_cases h0 : s.length = 0 ∨ sep.length = 0
  · rw [stri_flattenFull_empty s sep h0] at hbs
    exact absurd hbs (by simp)
  · cases hsep : sep.getD 0 none with
    | none =>
        rw [stri_flattenFull_sepNA s sep h0 hsep] at hbs
        exact absurd hbs (by simp)
    | some sepb =>
        by_cases hany : s.any (fun x => x.isNone) = true
        · rw [stri_flattenFull_anyNA s sep h0 sepb hsep hany] at hbs
          exact absurd hbs (by simp)
        · have hany' : s.any (fun x => x.isNone) = false := by
            cases hB : s.any (fun x => x.isNone) with
            | false => rfl
            | true => exact absurd hB hany
          rw [stri_flattenFull_main s sep h0 sepb hsep hany'] at hbs
          rw [List.mem_singleton] at hbs
          have hbs' : bs = joinWithSep sepb (s.map (fun x => x.getD [])) :=
            (Option.some.injEq _ _).mp hbs
          rw [hbs']
          refine joinWithSep_valid sepb (hvsep sepb (getD_some_mem hsep)) _ ?_
          intro x hx
          rw [List.mem_map] at hx
          obtain ⟨y, hy, hyx⟩ := hx
          cases y with
          | none =>
              exfalso
              rw [List.any_eq_false] at hany'
              exact hany' none hy rfl
          | some z =>
              have hzx : z = x := hyx
              rw [← hzx]
              exact hvs z hy

theorem stri_dup_getD (s : List NStr) (c : List NInt) (i : Nat)
    (hi : i < recycler2 s.length c.length) :
    (stri_dup s c).getD i none = dupNaiveSlot s c i := by
  rw [dup_eq_naive]
  unfold dupNaive
  exact getD_map_range _ _ _ _ hi

/-- C1: for every output index `i` of `duplicate(s, c)` with broadcast
length `L`, writing `si = s[i mod |s|]` and `ci = c[i mod |c|]`: if `si`
is null, `ci` is null, or `ci < 0` the slot is null; if (not null and)
`ci = 0` or `byte_len(si) = 0` the slot is the empty string; otherwise
the slot is `si` repeated `ci` times, whose byte length is
`ci * byte_len(si)`. -/
theorem dup_slot_semantics (s : List NStr) (c : List NInt) (i : Nat)
    (hi : i < recycler2 s.length c.length) :
    (s.getD (i % s.length) none = none →
      (stri_dup s c).getD i none = none) ∧
    (c.getD (i % c.length) none = none →
      (stri_dup s c).getD i none = none) ∧
    (∀ d : Int, c.getD (i % c.length) none = some d → d < 0 →
      (stri_dup s c).getD i none = none) ∧
    (∀ str (d : Int), s.getD (i % s.length) none = some str →
      c.getD (i % c.length) none = some d → 0 ≤ d →
      (d = 0 ∨ str.length = 0) → (stri_dup s c).getD i none = some []) ∧
    (∀ str (d : Int), s.getD (i % s.length) none = some str →
      c.getD (i % c.length) none = some d → 0 < d → 0 < str.length →
      (stri_dup s c).getD i none
          = some (List.flatten (List.replicate d.toNat str)) ∧
        (List.flatten (List.replicate d.toNat str)).length
          = d.toNat * str.length) := by
  rw [stri_dup_getD s c i hi]
  refine ⟨?_, ?_, ?_, ?_, ?_⟩
  · intro h
    unfold dupNaiveSlot
    rw [h]
  · intro h
    unfold dupNaiveSlot
    cases hsg : s.getD (i % s.length) none with
    | none => rfl
    | some str => rw [h]
  · intro d hc hneg
    unfold dupNaiveSlot
    cases hsg : s.getD (i % s.length) none with
    | none => rfl
    | some str =>
        rw [hc]
        show (if d < 0 then none else _) = none
        rw [if_pos hneg]
  · intro str d hsg hc hge hz
    unfold dupNaiveSlot
    rw [hsg, hc]
    show (if d < 0 then none
      else if d ≤ 0 ∨ str.length ≤ 0 then some [] else _) = some []
    rw [if_neg (by omega), if_pos (by omega)]
  · intro str d hsg hc hd hlen
    unfold dupNaiveSlot
    rw [hsg, hc]
    constructor
    · show (if d < 0 then none
        else if d ≤ 0 ∨ str.length ≤ 0 then some []
        else some (List.flatten (List.replicate d.toNat str)))
          = some (List.flatten (List.replicate d.toNat str))
      rw [if_neg (by omega), if_neg (by omega)]
    · exact flatten_replicate_length d.toNat str

theorem dup_slot_semantics_witness :
    (0 : Nat) < recycler2 [some [97, 98]].length [some (2 : Int)].length ∧
    (stri_dup [some [97, 98]] [some (2 : Int)]).getD 0 none
      = some (List.flatten (List.replicate (2 : Int).toNat [97, 98])) :=
  ⟨by decide,
   ((dup_slot_semantics [some [97, 98]] [some (2 : Int)] 0
       (by decide)).2.2.2.2 [97, 98] 2 rfl rfl (by decide) (by decide)).1⟩

/-- C2: for every output index `i` of `join2(a, b)` with both operands
non-empty: if `a[i mod |a|]` or `b[i mod |b|]` is null the slot is null;
otherwise the slot is the byte concatenation of the two slices, whose
byte length is the sum of the two byte lengths. -/
theorem join2_slot_semantics (a b : List NStr) (ha : a.length ≠ 0)
    (hb : b.length ≠ 0) (i : Nat)
    (hi : i < recycler2 a.length b.length) :
    ((a.getD (i % a.length) none = none
        ∨ b.getD (i % b.length) none = none) →
      (stri_join2 a b).getD i none = none) ∧
    (∀ s1 s2, a.getD (i % a.length) none = some s1 →
      b.getD (i % b.length) none = some s2 →
      (stri_join2 a b).getD i none = some (s1 ++ s2) ∧
      (s1 ++ s2).length = s1.length + s2.length) := by
  rw [join2_getD a b ha hb i hi]
  constructor
  · intro h
    unfold join2NaiveSlot
    rcases h with h | h
    · rw [h]
    · cases hag : a.getD (i % a.length) none with
      | none => rfl
      | some s1 => rw [h]
  · intro s1 s2 h1 h2
    unfold join2NaiveSlot
    rw [h1, h2]
    exact ⟨rfl, List.length_append s1 s2⟩

theorem join2_slot_semantics_witness :
    [some [102]].length ≠ 0 ∧ [some [88, 89]].length ≠ 0 ∧
    (0 : Nat) < recycler2 [some [102]].length [some [88, 89]].length ∧
    (stri_join2 [some [102]] [some [88, 89]]).getD 0 none
      = some ([102] ++ [88, 89]) :=
  ⟨by decide, by decide, by decide,
   ((join2_slot_semantics [some [102]] [some [88, 89]] (by decide) (by decide)
       0 (by decide)).2 [102] [88, 89] rfl rfl).1⟩

/-- C3: assuming the inputs have been coerced to UTF-8 sequences (the
StringSeq view's contract, spec sections 1 and 4.1), every non-null
string emitted by `duplicate`, `join2` and `flatten` is valid UTF-8. -/
theorem outputs_utf8 (s a b t sep : List NStr) (c : List NInt)
    (hs : SeqValid s) (ha : SeqValid a) (hb : SeqValid b)
    (ht : SeqValid t) (hsep : SeqValid sep) :
    SeqValid (stri_dup s c) ∧ SeqValid (stri_join2 a b) ∧
    SeqValid (stri_flatten t sep) :=
  ⟨stri_dup_valid s c hs, stri_join2_valid a b ha hb,
   stri_flatten_valid t sep ht hsep⟩

theorem seqValid_singleton_a : SeqValid [some [97]] := by
  intro bs hbs
  rw [List.mem_singleton] at hbs
  rw [(Option.some.injEq _ _).mp hbs]
  exact Utf8Valid.ascii (by omega) Utf8Valid.nil

theorem outputs_utf8_witness :
    SeqValid (stri_dup [some [97]] [some (1 : Int)]) ∧
    SeqValid (stri_join2 [some [97]] [some [97]]) ∧
    SeqValid (stri_flatten [some [97]] [some [97]]) :=
  outputs_utf8 [some [97]] [some [97]] [some [97]] [some [97]] [some [97]]
    [some (1 : Int)] seqValid_singleton_a seqValid_singleton_a
    seqValid_singleton_a seqValid_singleton_a seqValid_singleton_a

/-- C4 counterexample: `join2` with a length-0 first operand and a
length-1 second operand returns the second operand unchanged
(src/src/join.cpp line 142), so the result has length 1, not 0. -/
theorem join2_len0_cex :
    ([] : List NStr).length = 0 ∧
    (stri_join2 ([] : List NStr) [some [120]]).length = 1 := by
  constructor
  · rfl
  · rfl

/-- C4 amended: a length-0 operand gives a length-0 result for
Duplicate; for PairJoin a length-0 operand makes `join2` return the
other operand unchanged (so the result has the other operand's length,
which is 0 only when both operands are empty). -/
theorem len_zero_operand_amended (s : List NStr) (c : List NInt)
    (a b : List NStr) :
    (s.length = 0 ∨ c.length = 0 → stri_dup s c = []) ∧
    (a.length = 0 → stri_join2 a b = b) ∧
    (a.length ≠ 0 → b.length = 0 → stri_join2 a b = a) := by
  refine ⟨?_, ?_, ?_⟩
  · intro h
    unfold stri_dup
    rw [if_pos (by unfold recycler2; rw [if_pos h])]
  · intro h
    unfold stri_join2
    rw [if_pos h]
  · intro ha hb
    unfold stri_join2
    rw [if_neg ha, if_pos hb]

theorem len_zero_operand_amended_witness :
    stri_dup ([] : List NStr) [some (1 : Int)] = [] ∧
    stri_join2 ([] : List NStr) [some [120]] = [some [120]] ∧
    stri_join2 [some [120]] ([] : List NStr) = [some [120]] :=
  ⟨(len_zero_operand_amended [] [some (1 : Int)] [] []).1 (Or.inl rfl),
   (len_zero_operand_amended [] [] [] [some [120]]).2.1 rfl,
   (len_zero_operand_amended [] [] [some [120]] []).2.2 (by decide) rfl⟩

/-- C5: the buffer-reusing implementation of Duplicate (which keeps
already-written repetitions when consecutive output slots resolve to the
same underlying element and resets the written prefix when the element
changes) produces exactly the same output sequence as the naive
implementation that writes `ci` fresh copies of `si` for every slot —
in particular also when a later slot sharing the same source has a
smaller count than an earlier one. -/
theorem dup_reuse_equiv_naive (s : List NStr) (c : List NInt) :
    stri_dup s c = dupNaive s c :=
  dup_eq_naive s c

/-- C6: the pre-pass of `stri_dup` computes the scratch size as the
running maximum (from 0) of `ci * byte_len(si)` over all output slots,
skipping only the slots where `si` or `ci` is null — slots with
`ci < 0` are included but can never raise the maximum — and the
emission pass never writes a byte at an offset at or beyond that size. -/
theorem dup_bufsize_safety (s : List NStr) (c : List NInt) :
    (0 ≤ dupBufsize s c (recycler2 s.length c.length)) ∧
    (∀ i, i < recycler2 s.length c.length → ∀ str (d : Int),
      s.getD (i % s.length) none = some str →
      c.getD (i % c.length) none = some d →
      d * (str.length : Int)
        ≤ dupBufsize s c (recycler2 s.length c.length)) ∧
    (dupBufsize s c (recycler2 s.length c.length) = 0 ∨
      ∃ i, i < recycler2 s.length c.length ∧ ∃ str : Str, ∃ d : Int,
        s.getD (i % s.length) none = some str ∧
        c.getD (i % c.length) none = some d ∧
        dupBufsize s c (recycler2 s.length c.length)
          = d * (str.length : Int)) ∧
    (∀ o ∈ (dupRun s c (recycler2 s.length c.length)).1.tr,
      (o : Int) < dupBufsize s c (recycler2 s.length c.length)) := by
  refine ⟨maxFold_init_le _ _ 0, ?_, ?_, dupRun_tr_lt s c⟩
  · intro i hi str d hsg hcg
    refine maxFold_ge (dupSize s c) _ 0 i (List.mem_range.mpr hi) _ ?_
    unfold dupSize
    rw [hsg, hcg]
  · rcases maxFold_attained (dupSize s c)
      (List.range (recycler2 s.length c.length)) 0 with h | h
    · exact Or.inl h
    · obtain ⟨i, hi, hgi⟩ := h
      right
      refine ⟨i, List.mem_range.mp hi, ?_⟩
      unfold dupSize at hgi
      cases hsg : s.getD (i % s.length) none with
      | none =>
          rw [hsg] at hgi
          exact absurd hgi (by simp)
      | some str =>
          cases hcg : c.getD (i % c.length) none with
          | none =>
              rw [hsg, hcg] at hgi
              exact absurd hgi (by simp)
          | some d =>
              rw [hsg, hcg] at hgi
              exact ⟨str, d, rfl, rfl,
                ((Option.some.injEq _ _).mp hgi).symm⟩

/-- C7: for a non-empty `s` with all elements non-null and a non-null
single separator, `flatten` returns a length-1 sequence whose single
string is `s[0]` followed by `sep` then `s[i]` for the later elements;
its byte length is the sum of the element byte lengths plus
`(len(s) - 1) * byte_len(sep)`, and with an empty separator it is the
plain concatenation of the elements. -/
theorem flatten_single_sep_spec (s : List NStr) (sepb : Str)
    (hs : s ≠ []) (hnn : ∀ x ∈ s, x ≠ none) :
    stri_flatten s [some sepb]
        = [some (joinWithSep sepb (s.map (fun x => x.getD [])))] ∧
    (joinWithSep sepb (s.map (fun x => x.getD []))).length
        = ((s.map (fun x => x.getD [])).map List.length).sum
          + (s.length - 1) * sepb.length ∧
    joinWithSep ([] : Str) (s.map (fun x => x.getD []))
        = List.flatten (s.map (fun x => x.getD [])) := by
  have hany : s.any (fun x => x.isNone) = false := by
    rw [List.any_eq_false]
    intro x hx he
    cases x with
    | none => exact hnn none hx rfl
    | some z => exact absurd he (by simp)
  refine ⟨?_, ?_, joinWithSep_nil_sep _⟩
  · unfold stri_flatten
    rw [stri_flattenFull_main s [some sepb]
      (by simp [List.length_eq_zero, hs]) sepb rfl hany]
  · rw [joinWithSep_length]
    rw [List.length_map]

theorem flatten_single_sep_spec_witness :
    [some [97], some [98]] ≠ ([] : List NStr) ∧
    stri_flatten [some [97], some [98]] [some [45]]
      = [some (joinWithSep [45]
          (([some [97], some [98]] : List NStr).map (fun x => x.getD [])))] :=
  ⟨by decide,
   (flatten_single_sep_spec [some [97], some [98]] [45] (by decide)
     (by decide)).1⟩

/-- C8: for a non-empty `s` and non-empty separator vector, a null
separator makes `flatten` return a length-1 sequence containing null,
and so does any null element of `s`, decided before any output byte is
emitted. -/
theorem flatten_null_gives_null (s sep : List NStr) (hs : s.length ≠ 0)
    (hsep : sep.length ≠ 0) :
    (sep.getD 0 none = none → stri_flatten s sep = [none]) ∧
    (none ∈ s → stri_flatten s sep = [none]) := by
  have h0 : ¬(s.length = 0 ∨ sep.length = 0) := by
    push_neg
    exact ⟨hs, hsep⟩
  constructor
  · intro h
    unfold stri_flatten
    rw [stri_flattenFull_sepNA s sep h0 h]
  · intro hmem
    cases hsg : sep.getD 0 none with
    | none =>
        unfold stri_flatten
        rw [stri_flattenFull_sepNA s sep h0 hsg]
    | some sepb =>
        unfold stri_flatten
        rw [stri_flattenFull_anyNA s sep h0 sepb hsg
          (List.any_eq_true.mpr ⟨none, hmem, rfl⟩)]

theorem flatten_null_gives_null_witness :
    ([some [97], none] : List NStr).length ≠ 0 ∧
    ([some [44]] : List NStr).length ≠ 0 ∧
    stri_flatten [some [97], none] [some [44]] = [none] :=
  ⟨by decide, by decide,
   (flatten_null_gives_null [some [97], none] [some [44]] (by decide)
     (by decide)).2 (by decide)⟩

/-- C9: for a non-empty `s`, a separator vector with more than one
element makes `flatten` emit exactly one `COLLAPSE_EXPECTED1` warning
and compute the same value as `flatten` with only the first separator
element. -/
theorem flatten_multi_sep_first (s sep : List NStr) (hs : s.length ≠ 0)
    (hm : 1 < sep.length) :
    stri_flattenFull s sep
      = ((stri_flattenFull s [sep.getD 0 none]).1,
         [StriWarning.collapseExpected1]) := by
  have h0 : ¬(s.length = 0 ∨ sep.length = 0) := by
    push_neg
    constructor
    · exact hs
    · omega
  have h0' : ¬(s.length = 0 ∨ ([sep.getD 0 none] : List NStr).length = 0) := by
    push_neg
    constructor
    · exact hs
    · simp
  have hw : flattenWarns sep = [StriWarning.collapseExpected1] := by
    unfold flattenWarns
    rw [if_pos hm]
  cases hsg : sep.getD 0 none with
  | none =>
      rw [stri_flattenFull_sepNA s sep h0 hsg, hw,
        stri_flattenFull_sepNA s [none] (by simpa using h0') rfl]
  | some sepb =>
      by_cases hany : s.any (fun x => x.isNone) = true
      · rw [stri_flattenFull_anyNA s sep h0 sepb hsg hany, hw,
          stri_flattenFull_anyNA s [some sepb] (by simpa using h0') sepb
            rfl hany]
      · have hany' : s.any (fun x => x.isNone) = false := by
          cases hB : s.any (fun x => x.isNone) with
          | false => rfl
          | true => exact absurd hB hany
        rw [stri_flattenFull_main s sep h0 sepb hsg hany', hw,
          stri_flattenFull_main s [some sepb] (by simpa using h0') sepb
            rfl hany']

theorem flatten_multi_sep_first_witness :
    ([some [97], some [98]] : List NStr).length ≠ 0 ∧
    1 < ([some [44], some [59]] : List NStr).length ∧
    stri_flattenFull [some [97], some [98]] [some [44], some [59]]
      = ((stri_flattenFull [some [97], some [98]]
            [([some [44], some [59]] : List NStr).getD 0 none]).1,
         [StriWarning.collapseExpected1]) :=
  ⟨by decide, by decide,
   flatten_multi_sep_first [some [97], some [98]] [some [44], some [59]]
     (by decide) (by decide)⟩

/-- C10: a length-0 `s` or a length-0 separator vector makes `flatten`
return the length-0 sequence immediately, with no warning emitted and
without the null-separator rule ever applying. -/
theorem flatten_empty_short_circuit (s sep : List NStr)
    (h : s.length = 0 ∨ sep.length = 0) :
    stri_flattenFull s sep = ([], []) :=
  stri_flattenFull_empty s sep h

theorem flatten_empty_short_circuit_witness :
    (([some [97]] : List NStr).length = 0 ∨ ([] : List NStr).length = 0) ∧
    stri_flattenFull [some [97]] ([] : List NStr) = ([], []) :=
  ⟨Or.inr rfl,
   flatten_empty_short_circuit [some [97]] [] (Or.inr rfl)⟩
